import Mathlib

set_option maxHeartbeats 1000000

/-
Verification of the neuro-trail retrieval/ingestion core against its
natural-language specification.

Shallow embedding conventions:
* Python strings are `List Char`; Python slices `text[a:b]` become
  `(text.drop a).take (b - a)`.
* Python floats only ever flow through the modelled code opaquely, so
  vector components are modelled as `Int` (exact arithmetic).
* The `while` loop of `split_text` is written with an explicit fuel
  argument (the Python loop diverges for `chunk_size = 0`; every theorem
  supplies enough fuel for the cases where the Python loop terminates).
* `unicodedata.normalize('NFKC', ...)` is modelled as the identity on the
  character sequence: NFKC never produces a newline or any other
  whitespace that the subsequent `re.sub(r'\s+', ' ', ...)` pass would
  treat differently, and none of the checked claims depend on the
  compatibility folding itself.
-/

/-! ## Text utilities — `backend/app/utils/text_utils.py` -/

/-- Python's `\s` on the ASCII range: the whitespace classes collapsed by
`re.sub(r'\s+', ' ', text)` in `normalize_text`. -/
def isPySpace (c : Char) : Bool :=
  c = ' ' || c = '\t' || c = '\n' || c = '\r' || c = '\x0b' || c = '\x0c'

/-- One pass of `re.sub(r'\s+', ' ', text)`: every maximal whitespace run
becomes a single `' '`.  The Boolean flag records whether the previous
character belonged to a whitespace run. -/
def collapseAux : Bool → List Char → List Char
  | _, [] => []
  | inRun, c :: rest =>
    if isPySpace c then
      if inRun then collapseAux true rest
      else ' ' :: collapseAux true rest
    else c :: collapseAux false rest

/-- `re.sub(r'\s+', ' ', text)`. -/
def collapseWS (t : List Char) : List Char := collapseAux false t

/-- Python `str.strip()` restricted to the whitespace classes above. -/
def stripWS (t : List Char) : List Char :=
  ((t.dropWhile isPySpace).reverse.dropWhile isPySpace).reverse

/-- `normalize_text` (text_utils.py lines 6-22): NFKC (modelled as the
identity, see the header comment), whitespace collapse, strip. -/
def normalizeText (t : List Char) : List Char := stripWS (collapseWS t)

/-- `w[p : p + sep.length] == sep`: the separator `sep` occurs in `w`
starting at index `p`. -/
def occursAtB (sep w : List Char) (p : Nat) : Bool :=
  decide ((w.drop p).take sep.length = sep)

/-- Search downward from index `n` for the highest occurrence of `sep`. -/
def rfindFrom (sep w : List Char) : Nat → Option Nat
  | 0 => if occursAtB sep w 0 then some 0 else none
  | n + 1 => if occursAtB sep w (n + 1) then some (n + 1) else rfindFrom sep w n

/-- Python `w.rfind(sep)` for nonempty `sep`, with `none` for `-1`. -/
def rfind (sep w : List Char) : Option Nat := rfindFrom sep w w.length

/-- The ranked separator list built in `split_text` (text_utils.py lines
56-63): paragraph break, sentence terminators, clause punctuation. -/
def breakSeps : List (List Char) :=
  [['\n', '\n'], ['.', ' '], ['?', ' '], ['!', ' '], [';'], [',']]

/-- The `for bp in break_points` loop (lines 66-70): the first separator in
rank order whose *last* occurrence `bp` satisfies `bp > chunk_size // 2`
wins; otherwise no break point is used. -/
def pickBreak (seps : List (List Char)) (chunk : List Char) (C : Nat) : Option Nat :=
  match seps with
  | [] => none
  | s :: rest =>
    match rfind s chunk with
    | some bp => if C / 2 < bp then some bp else pickBreak rest chunk C
    | none => pickBreak rest chunk C

/-- One iteration of the `while` loop of `split_text` (lines 48-71): the
final `end` for the window starting at `start`.  `end = start + chunk_size`
is kept unless the window stops short of the text end and a break point is
accepted, in which case `end = start + bp + 2` ("include the period and
space"). -/
def stepEnd (text : List Char) (C start : Nat) : Nat :=
  if start + C < text.length then
    match pickBreak breakSeps ((text.drop start).take C) C with
    | some bp => start + bp + 2
    | none => start + C
  else start + C

/-- Line 75: `start = end - overlap if end - overlap > start else end`. -/
def nextStart (text : List Char) (C O start : Nat) : Nat :=
  if start < stepEnd text C start - O then stepEnd text C start - O
  else stepEnd text C start

/-- The `while start < len(text)` loop of `split_text` (lines 48-75),
returning the emitted `(start, end)` windows.  `fuel` bounds the number of
iterations. -/
def splitBounds (text : List Char) (C O : Nat) : Nat → Nat → List (Nat × Nat)
  | _, 0 => []
  | start, fuel + 1 =>
    if start < text.length then
      (start, stepEnd text C start) ::
        splitBounds text C O (nextStart text C O start) fuel
    else []

/-- The same loop, returning the emitted chunks (text slices). -/
def splitLoop (text : List Char) (C O : Nat) : Nat → Nat → List (List Char)
  | _, 0 => []
  | start, fuel + 1 =>
    if start < text.length then
      ((text.drop start).take (stepEnd text C start - start)) ::
        splitLoop text C O (nextStart text C O start) fuel
    else []

/-- `split_text` (text_utils.py lines 25-77). -/
def splitText (t : List Char) (C O : Nat) : List (List Char) :=
  let text := normalizeText t
  if text.length ≤ C then [text]
  else splitLoop text C O 0 (text.length + 1)

/-- The slice of `text` described by a `(start, end)` window. -/
def sliceOf (text : List Char) (p : Nat × Nat) : List Char :=
  (text.drop p.1).take (p.2 - p.1)

example : normalizeText "  a \n\n b  ".data = "a b".data := by decide

example : splitText "hello".data 10 2 = ["hello".data] := by decide

example :
    splitText "abcdefghij".data 4 1 =
      ["abcd".data, "defg".data, "ghij".data, "j".data] := by decide

/-! ## Embedding generation — `src/v2/rag/embedding_service.py` and
`backend/app/plugins/embedding_providers/ollama.py` -/

/-- `batch_size = 250` in `EmbeddingService.generate` (line 71). -/
def embedBatchSize : Nat := 250

/-- `for i in range(0, len(texts), batch_size): batch = texts[i:i+batch_size]`
(lines 73-74), with a fuel argument making the recursion structural. -/
def subBatchesF {α : Type} : Nat → List α → List (List α)
  | _, [] => []
  | 0, l => [l]
  | fuel + 1, l => l.take embedBatchSize :: subBatchesF fuel (l.drop embedBatchSize)

/-- The sub-batch decomposition performed by `EmbeddingService.generate`. -/
def subBatches {α : Type} (l : List α) : List (List α) := subBatchesF l.length l

/-- The body of `EmbeddingService.generate`: call the provider's
batch-embedding operation per sub-batch, concatenating (`extend`) the
results in order; the first raised error aborts the loop and propagates
(lines 69-100).  `prov` is the backend call (`ollama_client.embed` /
`litellm.embedding`). -/
def generateE {α ε : Type} (prov : List α → Except ε (List (List Int))) :
    List (List α) → Except ε (List (List Int))
  | [] => .ok []
  | b :: bs =>
    match prov b with
    | .error e => .error e
    | .ok vs =>
      match generateE prov bs with
      | .error e => .error e
      | .ok rest => .ok (vs ++ rest)

/-- `EmbeddingService.generate` on a list input.  The `tenacity` retry
decorator re-runs the whole call; for the deterministic backends quantified
over here a retry returns the same value, so it is the identity and is not
modelled separately. -/
def generate {α ε : Type} (prov : List α → Except ε (List (List Int)))
    (texts : List α) : Except ε (List (List Int)) :=
  generateE prov (subBatches texts)

/-- The sub-batches for which the provider operation is actually issued:
the loop stops issuing calls after the first failing sub-batch. -/
def issuedBatches {α ε : Type} (prov : List α → Except ε (List (List Int))) :
    List (List α) → List (List α)
  | [] => []
  | b :: bs =>
    b :: (match prov b with
          | .ok _ => issuedBatches prov bs
          | .error _ => [])

/-- The `[0.0] * 768` fallback vector of `OllamaEmbedding.embed_documents`
(ollama.py line 111). -/
def zeroVec : List Int := List.replicate 768 0

/-- The per-text loop of `OllamaEmbedding.embed_documents` (lines 102-113):
each text is embedded by a single-item provider call (`_get_embedding`,
modelled by `oracle`); a raised error is caught, logged, and replaced by the
768-dimensional zero vector, and the loop continues. -/
def ollamaEmbedDocumentsCore (oracle : Nat → Except String (List Int))
    (texts : List Nat) : List (List Int) :=
  texts.map fun t =>
    match oracle t with
    | .ok v => v
    | .error _ => zeroVec

/-- `OllamaEmbedding.embed_documents` (lines 80-113) including the
`initialized` guard (line 96). -/
def ollamaEmbedDocuments (inited : Bool) (oracle : Nat → Except String (List Int))
    (texts : List Nat) : Except String (List (List Int)) :=
  if inited then .ok (ollamaEmbedDocumentsCore oracle texts)
  else .error "Ollama embedding not initialized"

/-- `OllamaEmbedding.embed_query` (lines 115-142): the guard, then a single
provider call whose error is re-raised (`raise`, line 142). -/
def ollamaEmbedQuery (inited : Bool) (oracle : Nat → Except String (List Int))
    (t : Nat) : Except String (List Int) :=
  if inited then
    match oracle t with
    | .ok v => .ok v
    | .error e => .error e
  else .error "Ollama embedding not initialized"

/-! ## Two-stage search — `src/rag/vector_store.py` (`VectorStore.search`)

The persistent ChromaDB backend is modelled as exact: `collection.query`
returns the stored entries ranked by ascending squared-L2 distance to the
query (the store's metric), truncated to `n_results`.  FAISS `IndexFlatL2`
is exact by definition. -/

/-- Compare two `(distance, position)` pairs by distance. -/
def keyLe (a b : Int × Nat) : Prop := a.1 ≤ b.1

instance : DecidableRel keyLe := fun a b => inferInstanceAs (Decidable (a.1 ≤ b.1))

instance : IsTotal (Int × Nat) keyLe := ⟨fun a b => Int.le_total a.1 b.1⟩

instance : IsTrans (Int × Nat) keyLe := ⟨fun _ _ _ => Int.le_trans⟩

/-- Squared L2 distance between two vectors. -/
def sqDist (q v : List Int) : Int := (q.zipWith (fun a b => (a - b) * (a - b)) v).sum

/-- Rank a list of stored vectors by ascending distance to `q`, carrying
each vector's storage position. -/
def rankAll (items : List (List Int)) (q : List Int) : List (Int × Nat) :=
  List.insertionSort keyLe (items.enum.map fun p => (sqDist q p.2, p.1))

/-- A stored collection entry: its embedding vector and its document
payload (text/metadata, represented by a tag). -/
structure CEntry where
  vec : List Int
  doc : Nat
deriving DecidableEq

/-- Stage 1 of `VectorStore.search` (lines 185-196): the ChromaDB query
with `n_results = min(top_k * 5, collection.count())`, yielding
`(distance, id)` candidates; ids are insertion positions (the store
generates ids from the running count). -/
def chromaStage (coll : List CEntry) (q : List Int) (k : Nat) : List (Int × Nat) :=
  (rankAll (coll.map (·.vec)) q).take (min (k * 5) coll.length)

/-- `self.index.search(query_embedding, m)` on FAISS `IndexFlatL2`: the `m`
nearest stored vectors as `(distance, position)` pairs, ascending. -/
def faissSearch (index : List (List Int)) (q : List Int) (m : Nat) : List (Int × Nat) :=
  (rankAll index q).take m

/-- `self.collection.get(ids=[id])` reduced to the document payload. -/
def fetchDoc (coll : List CEntry) (i : Nat) : Nat :=
  match coll.get? i with
  | some e => e.doc
  | none => 0

/-- `VectorStore.search` (vector_store.py lines 173-254), without metadata
filter: stage 1 queries ChromaDB; if the FAISS refinement index is
populated (`ntotal > 0`), stage 2 takes the `min(top_k, ntotal)` FAISS
nearest neighbours, maps each FAISS position through the candidate list
(skipping positions `≥ len(chroma_ids)`), fetches the documents, and
truncates to `top_k`; otherwise the raw ChromaDB candidates are returned
directly (lines 233-240) — with no truncation. -/
def vsSearch (coll : List CEntry) (index : List (List Int)) (q : List Int)
    (k : Nat) : List Nat :=
  let cands := chromaStage coll q k
  if cands.isEmpty then []
  else if 0 < index.length then
    ((faissSearch index q (min k index.length)).filterMap
      (fun h => (cands.get? h.2).map (fun c => fetchDoc coll c.2))).take k
  else
    cands.map (fun c => fetchDoc coll c.2)

example :
    vsSearch [⟨[0], 10⟩, ⟨[1], 11⟩] [] [0] 1 = [10, 11] := by decide

example :
    vsSearch [⟨[0], 10⟩, ⟨[1], 11⟩] [[0], [1]] [0] 1 = [10] := by decide

/-! ## Plugin registry — `backend/app/services/plugin_manager.py`

Provider instances are identified by the order in which they are
constructed (`nextId`); the `active` association list is the
`_active_plugins` registry keyed by `(plugin_type, plugin_name)`. -/

/-- Outcome of `plugin_class()` plus `await plugin_instance.initialize(...)`
for one constructed instance: success, the setup hook returning `False`,
the setup hook raising, or the constructor itself raising. -/
inductive InitOutcome
  | succeeds
  | returnsFalse
  | raisesInHook
  | raisesInCtor
deriving DecidableEq

/-- Outcome of `await plugin.shutdown()`. -/
inductive ShutOutcome
  | succeeds
  | returnsFalse
  | raisesErr
deriving DecidableEq

/-- `PluginNotFoundError` / `PluginInitializationError`. -/
inductive PMErr
  | notFound
  | initFailure
deriving DecidableEq

/-- The mutable state of the `PluginManager` singleton. -/
structure PMState where
  active : List ((String × String) × Nat)
  nextId : Nat
deriving DecidableEq

/-- Lookup in `_active_plugins[plugin_type][plugin_name]`. -/
def lookupActive (s : PMState) (c : String × String) : Option Nat :=
  (s.active.find? fun p => decide (p.1 = c)).map (·.2)

/-- `PluginManager.initialize_plugin` (lines 157-205): class lookup
(`PluginNotFoundError` if unregistered), return the already-active instance
if present, otherwise construct a fresh instance and run its setup hook;
only on success is the instance stored as active.  `beh` gives the
construction/setup outcome for each instance identity. -/
def initializePlugin (reg : List (String × String)) (beh : Nat → InitOutcome)
    (c : String × String) (s : PMState) : Except PMErr (Nat × PMState) :=
  if c ∈ reg then
    match lookupActive s c with
    | some i => .ok (i, s)
    | none =>
      match beh s.nextId with
      | .succeeds => .ok (s.nextId, ⟨(c, s.nextId) :: s.active, s.nextId + 1⟩)
      | _ => .error .initFailure
  else .error .notFound

/-- `PluginManager.get_plugin` (lines 207-241) with the default
`init_if_not_active=True`. -/
def getPlugin (reg : List (String × String)) (beh : Nat → InitOutcome)
    (c : String × String) (s : PMState) : Except PMErr (Nat × PMState) :=
  match lookupActive s c with
  | some i => .ok (i, s)
  | none => initializePlugin reg beh c s

/-- `PluginManager.shutdown_plugin` (lines 276-299): the active instance's
teardown hook runs; only a truthy return deletes the registry entry and
reports success. -/
def shutdownPlugin (sb : Nat → ShutOutcome) (c : String × String)
    (s : PMState) : Bool × PMState :=
  match lookupActive s c with
  | some i =>
    match sb i with
    | .succeeds => (true, ⟨s.active.filter fun p => decide (p.1 ≠ c), s.nextId⟩)
    | _ => (false, s)
  | none => (false, s)

/-- Registry well-formedness: every active instance was drawn from the
instance counter. -/
def wfState (s : PMState) : Prop := ∀ p ∈ s.active, p.2 < s.nextId

instance (s : PMState) : Decidable (wfState s) :=
  inferInstanceAs (Decidable (∀ p ∈ s.active, p.2 < s.nextId))

/-! ## Ingestion pipeline — `backend/app/services/document_service.py` -/

/-- Document status (`schemas/document.py`): the values `process_document`
writes. -/
inductive DocStatus
  | processing
  | completed
  | failed
deriving DecidableEq

/-- The document-handler stage output (`result.get("texts")` etc.),
reduced to the chunk list. -/
structure HandlerOut where
  texts : List Nat
deriving DecidableEq

/-- The outcomes of the externally-visible steps of one
`process_document` run.  `handlerResult` covers everything before the
knowledge-graph step that can raise inside the outer `try` (status update,
temp-file creation, plugin dispatch, `document_plugin.process_document`);
`embedResult` is `embedding_plugin.embed_documents`, `addResult` is
`vector_store.add_texts`, `kgResult` the graph mirroring. -/
structure IngestEnv where
  handlerResult : Except String HandlerOut
  embedResult : Except String (List (List Int))
  addResult : Except String (List Nat)
  kgResult : Except String Unit

/-- `DocumentService._add_to_vector_store` (lines 275-324): the whole body
sits in a `try` whose `except` logs and returns `False`; an embedding or
vector-store write failure therefore never escapes this method. -/
def addToVectorStoreStep (env : IngestEnv) : Bool :=
  match env.embedResult with
  | .error _ => false
  | .ok _ =>
    match env.addResult with
    | .error _ => false
    | .ok _ => true

/-- `DocumentService._add_to_knowledge_graph` (lines 245-273): same
catch-log-return-False shape. -/
def addToKnowledgeGraphStep (env : IngestEnv) : Bool :=
  match env.kgResult with
  | .error _ => false
  | .ok _ => true

/-- `DocumentService.process_document` (lines 115-216), reduced to the
final document status and message it records.  The Boolean results of the
knowledge-graph and vector-store steps are bound and discarded exactly as
in the source (lines 177-189: neither return value is inspected). -/
def processDocument (env : IngestEnv) : DocStatus × String :=
  match env.handlerResult with
  | .error e => (.failed, "Document processing failed: " ++ e)
  | .ok _ =>
    let _kgOk := addToKnowledgeGraphStep env
    let _vsOk := addToVectorStoreStep env
    (.completed, "Document processing completed")

/-! ## Helper lemmas -/

theorem generateE_err {α ε : Type} (prov : List α → Except ε (List (List Int)))
    (e : ε) :
    ∀ (pre : List (List α)) (b : List α) (post : List (List α)),
      (∀ p ∈ pre, ∃ v, prov p = .ok v) → prov b = .error e →
        generateE prov (pre ++ b :: post) = .error e ∧
          issuedBatches prov (pre ++ b :: post) = pre ++ [b] := by
  intro pre
  induction pre with
  | nil =>
    intro b post _ hb
    refine ⟨?_, ?_⟩
    · show generateE prov (b :: post) = .error e
      unfold generateE
      rw [hb]
    · show issuedBatches prov (b :: post) = [b]
      unfold issuedBatches
      rw [hb]
  | cons p pre ih =>
    intro b post hpre hb
    obtain ⟨v, hv⟩ := hpre p (List.mem_cons_self _ _)
    have ihr := ih b post (fun x hx => hpre x (List.mem_cons_of_mem _ hx)) hb
    refine ⟨?_, ?_⟩
    · show generateE prov (p :: (pre ++ b :: post)) = .error e
      unfold generateE
      rw [hv, ihr.1]
    · show issuedBatches prov (p :: (pre ++ b :: post)) = p :: (pre ++ [b])
      unfold issuedBatches
      rw [hv, ihr.2]

/-! ## Claim C1 -/

/-- C1 counterexample: a run whose embedding step raises still ends with
status `completed` — `process_document` never sees the failure, because
`_add_to_vector_store` catches it and returns `False`, a value line 185
discards. -/
theorem c1_counterexample :
    IngestEnv.embedResult ⟨.ok ⟨[1, 2]⟩, .error "embedding failed", .ok [], .ok ()⟩ =
        .error "embedding failed" ∧
      processDocument ⟨.ok ⟨[1, 2]⟩, .error "embedding failed", .ok [], .ok ()⟩ =
        (.completed, "Document processing completed") ∧
      (processDocument ⟨.ok ⟨[1, 2]⟩, .error "embedding failed", .ok [], .ok ()⟩).1 ≠
        .failed :=
  ⟨rfl, rfl, by decide⟩

/-- C1 (amended): an embedding or vector-store write failure is caught
inside `_add_to_vector_store`, which merely returns `False`;
`process_document` ignores that value and still records status `completed`.
Status `failed` (with a message) is recorded exactly when an exception
escapes the earlier steps (handler dispatch/parsing, status updates). -/
theorem c1_amended (env : IngestEnv) :
    (∀ e, env.handlerResult = .error e →
        processDocument env = (.failed, "Document processing failed: " ++ e)) ∧
      (∀ r, env.handlerResult = .ok r → (processDocument env).1 = .completed) ∧
      (((∃ e, env.embedResult = .error e) ∨ (∃ e, env.addResult = .error e)) →
        addToVectorStoreStep env = false) := by
  refine ⟨?_, ?_, ?_⟩
  · intro e he
    unfold processDocument
    rw [he]
  · intro r hr
    unfold processDocument
    rw [hr]
  · intro h
    unfold addToVectorStoreStep
    rcases h with ⟨e, he⟩ | ⟨e, he⟩
    · rw [he]
    · rw [he]
      cases henv : env.embedResult <;> rfl

/-- C1 witness: the amended theorem applied to a concrete failing run. -/
theorem c1_amended_witness :
    addToVectorStoreStep ⟨.ok ⟨[]⟩, .error "boom", .ok [], .ok ()⟩ = false :=
  (c1_amended ⟨.ok ⟨[]⟩, .error "boom", .ok [], .ok ()⟩).2.2 (.inl ⟨"boom", rfl⟩)

/-! ## Claim C2 -/

/-- C2 counterexample: in the batch (multi-document) call
`OllamaEmbedding.embed_documents`, the failing second text is silently
replaced by the 768-dimensional zero vector and the remaining texts are
still embedded — the call reports success; the single-item
`embed_query`, by contrast, propagates the same failure.  This is the
reverse of the claimed behaviour. -/
theorem c2_counterexample :
    ollamaEmbedDocuments true (fun t => if t = 1 then .error "boom" else .ok [5])
        [0, 1, 2] = .ok [[5], zeroVec, [5]] ∧
      ollamaEmbedQuery true (fun t => if t = 1 then .error "boom" else .ok [5]) 1 =
        .error "boom" :=
  ⟨rfl, rfl⟩

/-- C2 (amended): `OllamaEmbedding.embed_documents` replaces each failed
text's embedding by a logged 768-dimensional zero vector and continues —
it always returns one vector per input text and never propagates a
per-text error — while `embed_query` re-raises; in the v2
`EmbeddingService.generate`, a sub-batch failure aborts the remaining
sub-batches and the error propagates to the caller. -/
theorem c2_amended (oracle : Nat → Except String (List Int)) (texts : List Nat) :
    (ollamaEmbedDocumentsCore oracle texts).length = texts.length ∧
      (∀ i t e, texts.get? i = some t → oracle t = .error e →
        (ollamaEmbedDocumentsCore oracle texts).get? i = some zeroVec) ∧
      (∀ t e, oracle t = .error e → ollamaEmbedQuery true oracle t = .error e) ∧
      (∀ (prov : List Nat → Except String (List (List Int)))
          (pre : List (List Nat)) (b : List Nat) (post : List (List Nat)) (e : String),
        subBatches texts = pre ++ b :: post →
        (∀ p ∈ pre, ∃ v, prov p = .ok v) → prov b = .error e →
          generate prov texts = .error e ∧
            issuedBatches prov (subBatches texts) = pre ++ [b]) := by
  refine ⟨List.length_map _ _, ?_, ?_, ?_⟩
  · intro i t e ht he
    unfold ollamaEmbedDocumentsCore
    rw [List.get?_map, ht]
    simp [he]
  · intro t e he
    unfold ollamaEmbedQuery
    rw [he]
    rfl
  · intro prov pre b post e hdec hpre hb
    have h := generateE_err prov e pre b post hpre hb
    refine ⟨?_, ?_⟩
    · unfold generate
      rw [hdec, h.1]
    · rw [hdec, h.2]

/-- C2 witness: the amended theorem applied to a concrete failing text. -/
theorem c2_amended_witness :
    (ollamaEmbedDocumentsCore (fun t => if t = 1 then .error "x" else .ok [2])
        [0, 1]).get? 1 = some zeroVec :=
  (c2_amended (fun t => if t = 1 then .error "x" else .ok [2]) [0, 1]).2.1 1 1 "x" rfl rfl

/-! ## Chunking lemmas: `rfind` and the break-point loop -/

theorem occursAtB_lt_length {sep w : List Char} {p : Nat} (hs : sep ≠ [])
    (h : occursAtB sep w p = true) : p < w.length := by
  by_contra hc
  push_neg at hc
  unfold occursAtB at h
  rw [List.drop_eq_nil_of_le hc] at h
  simp only [List.take_nil, decide_eq_true_eq] at h
  exact hs h.symm

theorem rfindFrom_some {sep w : List Char} :
    ∀ {n p : Nat}, rfindFrom sep w n = some p →
      occursAtB sep w p = true ∧ p ≤ n ∧
        ∀ q, q ≤ n → occursAtB sep w q = true → q ≤ p := by
  intro n
  induction n with
  | zero =>
    intro p h
    unfold rfindFrom at h
    by_cases h0 : occursAtB sep w 0
    · rw [if_pos h0] at h
      injection h with h
      subst h
      exact ⟨h0, le_rfl, fun q hq _ => hq⟩
    · rw [if_neg h0] at h
      exact absurd h (by simp)
  | succ n ih =>
    intro p h
    unfold rfindFrom at h
    by_cases h1 : occursAtB sep w (n + 1)
    · rw [if_pos h1] at h
      injection h with h
      subst h
      exact ⟨h1, le_rfl, fun q hq _ => hq⟩
    · rw [if_neg h1] at h
      obtain ⟨ho, hle, hmax⟩ := ih h
      refine ⟨ho, by omega, fun q hq hocc => ?_⟩
      by_cases hqn : q = n + 1
      · subst hqn; exact absurd hocc h1
      · exact hmax q (by omega) hocc

theorem rfindFrom_complete {sep w : List Char} :
    ∀ {n p : Nat}, occursAtB sep w p = true → p ≤ n →
      (∀ q, q ≤ n → occursAtB sep w q = true → q ≤ p) →
      rfindFrom sep w n = some p := by
  intro n
  induction n with
  | zero =>
    intro p hp hle _
    have h0 : p = 0 := by omega
    subst h0
    unfold rfindFrom
    rw [if_pos hp]
  | succ n ih =>
    intro p hp hle hmax
    unfold rfindFrom
    by_cases h1 : occursAtB sep w (n + 1)
    · have hp1 : p = n + 1 := by
        have := hmax (n + 1) le_rfl h1
        omega
      subst hp1
      rw [if_pos h1]
    · rw [if_neg h1]
      have hp' : p ≤ n := by
        by_cases hpn : p = n + 1
        · subst hpn; exact absurd hp h1
        · omega
      exact ih hp hp' fun q hq hocc => hmax q (by omega) hocc

theorem rfind_some_facts {sep w : List Char} {p : Nat} (hs : sep ≠ [])
    (h : rfind sep w = some p) :
    occursAtB sep w p = true ∧ ∀ q, occursAtB sep w q = true → q ≤ p := by
  obtain ⟨ho, _, hmax⟩ :=
    rfindFrom_some (show rfindFrom sep w w.length = some p from h)
  exact ⟨ho, fun q hocc =>
    hmax q (le_of_lt (occursAtB_lt_length hs hocc)) hocc⟩

theorem rfind_eq_some {sep w : List Char} {p : Nat} (hs : sep ≠ [])
    (hp : occursAtB sep w p = true)
    (hmax : ∀ q, occursAtB sep w q = true → q ≤ p) :
    rfind sep w = some p :=
  rfindFrom_complete hp (le_of_lt (occursAtB_lt_length hs hp))
    (fun q _ hocc => hmax q hocc)

theorem rfind_eq_none_of {sep w : List Char}
    (h : ∀ p, occursAtB sep w p = false) : rfind sep w = none := by
  cases hr : rfind sep w with
  | none => rfl
  | some p =>
    have ho :=
      (rfindFrom_some (show rfindFrom sep w w.length = some p from hr)).1
    rw [h p] at ho
    exact absurd ho (by simp)

theorem pickBreak_cons (s : List Char) (rest : List (List Char))
    (chunk : List Char) (C : Nat) :
    pickBreak (s :: rest) chunk C =
      match rfind s chunk with
      | some bp => if C / 2 < bp then some bp else pickBreak rest chunk C
      | none => pickBreak rest chunk C := rfl

theorem pickBreak_some_facts :
    ∀ {seps : List (List Char)} {chunk : List Char} {C bp : Nat},
      (∀ s ∈ seps, s ≠ []) → pickBreak seps chunk C = some bp →
        C / 2 < bp ∧ bp < chunk.length := by
  intro seps
  induction seps with
  | nil => intro chunk C bp _ h; exact absurd h (by simp [pickBreak])
  | cons s rest ih =>
    intro chunk C bp hs h
    rw [pickBreak_cons] at h
    cases hr : rfind s chunk with
    | none =>
      rw [hr] at h
      have h2 : pickBreak rest chunk C = some bp := h
      exact ih (fun x hx => hs x (List.mem_cons_of_mem _ hx)) h2
    | some q =>
      rw [hr] at h
      have h2 : (if C / 2 < q then some q else pickBreak rest chunk C) = some bp := h
      by_cases hq : C / 2 < q
      · rw [if_pos hq] at h2
        injection h2 with h2
        subst h2
        have hocc := (rfind_some_facts (hs s (List.mem_cons_self _ _)) hr).1
        exact ⟨hq, occursAtB_lt_length (hs s (List.mem_cons_self _ _)) hocc⟩
      · rw [if_neg hq] at h2
        exact ih (fun x hx => hs x (List.mem_cons_of_mem _ hx)) h2

theorem pickBreak_eq_none :
    ∀ {seps : List (List Char)} {chunk : List Char} {C : Nat},
      (∀ s ∈ seps, ∀ p, occursAtB s chunk p = true → p ≤ C / 2) →
      pickBreak seps chunk C = none := by
  intro seps
  induction seps with
  | nil => intro chunk C _; rfl
  | cons s rest ih =>
    intro chunk C h
    rw [pickBreak_cons]
    cases hr : rfind s chunk with
    | none => exact ih fun x hx => h x (List.mem_cons_of_mem _ hx)
    | some q =>
      have hocc :=
        (rfindFrom_some (show rfindFrom s chunk chunk.length = some q from hr)).1
      have hle := h s (List.mem_cons_self _ _) q hocc
      show (if C / 2 < q then some q else pickBreak rest chunk C) = none
      rw [if_neg (show ¬ C / 2 < q by omega)]
      exact ih fun x hx => h x (List.mem_cons_of_mem _ hx)

theorem pickBreak_eq_some {s : List Char} :
    ∀ (pre : List (List Char)) {post : List (List Char)} {chunk : List Char}
      {C p : Nat},
      s ≠ [] →
      (∀ s' ∈ pre, ∀ q, occursAtB s' chunk q = true → q ≤ C / 2) →
      occursAtB s chunk p = true → C / 2 < p →
      (∀ q, occursAtB s chunk q = true → q ≤ p) →
      pickBreak (pre ++ s :: post) chunk C = some p := by
  intro pre
  induction pre with
  | nil =>
    intro post chunk C p hs _ hp hmid hmax
    show pickBreak (s :: post) chunk C = some p
    rw [pickBreak_cons, rfind_eq_some hs hp hmax]
    show (if C / 2 < p then some p else pickBreak post chunk C) = some p
    rw [if_pos hmid]
  | cons s' pre ih =>
    intro post chunk C p hs hpre hp hmid hmax
    show pickBreak (s' :: (pre ++ s :: post)) chunk C = some p
    rw [pickBreak_cons]
    cases hr : rfind s' chunk with
    | none =>
      exact ih hs (fun x hx => hpre x (List.mem_cons_of_mem _ hx)) hp hmid hmax
    | some q =>
      have hocc :=
        (rfindFrom_some (show rfindFrom s' chunk chunk.length = some q from hr)).1
      have hle := hpre s' (List.mem_cons_self _ _) q hocc
      show (if C / 2 < q then some q else pickBreak (pre ++ s :: post) chunk C) =
        some p
      rw [if_neg (show ¬ C / 2 < q by omega)]
      exact ih hs (fun x hx => hpre x (List.mem_cons_of_mem _ hx)) hp hmid hmax

theorem pickBreak_cons_none {s : List Char} {rest : List (List Char)}
    {chunk : List Char} {C : Nat} (h : rfind s chunk = none) :
    pickBreak (s :: rest) chunk C = pickBreak rest chunk C := by
  rw [pickBreak_cons, h]

theorem breakSeps_ne_nil : ∀ s ∈ breakSeps, s ≠ [] := by decide

theorem stepEnd_bounds (text : List Char) (C start : Nat) (hC : 0 < C) :
    start < stepEnd text C start ∧ stepEnd text C start ≤ start + C + 1 := by
  unfold stepEnd
  by_cases h : start + C < text.length
  · rw [if_pos h]
    cases hp : pickBreak breakSeps ((text.drop start).take C) C with
    | none =>
      show start < start + C ∧ start + C ≤ start + C + 1
      omega
    | some bp =>
      have hlt := (pickBreak_some_facts breakSeps_ne_nil hp).2
      have hlen : ((text.drop start).take C).length ≤ C := by
        rw [List.length_take]
        omega
      show start < start + bp + 2 ∧ start + bp + 2 ≤ start + C + 1
      omega
  · rw [if_neg h]
    omega

theorem nextStart_gt (text : List Char) (C O start : Nat) (hC : 0 < C) :
    start < nextStart text C O start := by
  unfold nextStart
  have := (stepEnd_bounds text C start hC).1
  by_cases h : start < stepEnd text C start - O
  · rw [if_pos h]; omega
  · rw [if_neg h]; omega

theorem nextStart_le (text : List Char) (C O start : Nat) :
    nextStart text C O start ≤ stepEnd text C start ∧
      stepEnd text C start - nextStart text C O start ≤ O := by
  unfold nextStart
  by_cases h : start < stepEnd text C start - O
  · rw [if_pos h]; omega
  · rw [if_neg h]; omega

/-! ## Claim C6 -/

/-- The chunk window used by claim C6's counterexample and witness:
`"aaaaaaaaaaaa. bbb, cccccccccccc"` (31 characters, already normalized). -/
def demoChunkText : List Char := "aaaaaaaaaaaa. bbb, cccccccccccc".data

/-- C6 counterexample: with `chunk_size = 20` the first window of
`demoChunkText` contains a clause-punctuation occurrence (`','` at index
17) past the midpoint and closer to the window end, yet the emitted chunk
ends at index 14 — `split_text` prefers the higher-ranked `'. '`
occurrence at index 12, not the acceptable occurrence closest to the
window end. -/
theorem c6_counterexample :
    occursAtB [','] (demoChunkText.take 20) 17 = true ∧
      20 / 2 < 17 ∧
      (splitText demoChunkText 20 5).head? = some (demoChunkText.take 14) ∧
      ¬ 17 < 14 := by
  refine ⟨by decide, by decide, by decide, by decide⟩

/-- C6 (amended): for a window not reaching the end of the text, if no
separator occurrence lies strictly past `floor(C / 2)` the chunk is a hard
cut at exactly `C`; otherwise the chunk ends at `bp + 2` where `bp` is the
*last* occurrence of the *highest-ranked* separator whose last occurrence
lies strictly past `floor(C / 2)` — an occurrence at or before
`floor(C / 2)` is never accepted, and rank order (paragraph break,
sentence terminators, clause punctuation) takes precedence over closeness
to the window end. -/
theorem c6_amended (text : List Char) (C O start fuel : Nat)
    (h1 : start < text.length) (h2 : start + C < text.length) :
    ((∀ s ∈ breakSeps, ∀ p, p ≤ C →
        occursAtB s ((text.drop start).take C) p = true → p ≤ C / 2) →
      (splitLoop text C O start (fuel + 1)).head? =
        some ((text.drop start).take C)) ∧
      (∀ (pre : List (List Char)) (s : List Char) (post : List (List Char)) (p : Nat),
        breakSeps = pre ++ s :: post →
        (∀ s' ∈ pre, ∀ q, q ≤ C →
          occursAtB s' ((text.drop start).take C) q = true → q ≤ C / 2) →
        occursAtB s ((text.drop start).take C) p = true → C / 2 < p →
        (∀ q, q ≤ C → occursAtB s ((text.drop start).take C) q = true → q ≤ p) →
        (splitLoop text C O start (fuel + 1)).head? =
          some ((text.drop start).take (p + 2))) := by
  have hwlen : ((text.drop start).take C).length ≤ C := by
    rw [List.length_take]
    omega
  have hhead : (splitLoop text C O start (fuel + 1)).head? =
      some ((text.drop start).take (stepEnd text C start - start)) := by
    unfold splitLoop
    rw [if_pos h1]
    rfl
  constructor
  · intro h
    have hnone : pickBreak breakSeps ((text.drop start).take C) C = none := by
      refine pickBreak_eq_none fun x hx p hocc => ?_
      have hplt := occursAtB_lt_length (breakSeps_ne_nil x hx) hocc
      exact h x hx p (by omega) hocc
    have hend : stepEnd text C start = start + C := by
      unfold stepEnd
      rw [if_pos h2, hnone]
    rw [hhead, hend, Nat.add_sub_cancel_left]
  · intro pre s post p hdec hpre hp hmid hmax
    have hsne : s ≠ [] := breakSeps_ne_nil s (by rw [hdec]; simp)
    have hsome : pickBreak breakSeps ((text.drop start).take C) C = some p := by
      rw [hdec]
      refine pickBreak_eq_some pre hsne ?_ hp hmid ?_
      · intro s' hs' q hocc
        have hqlt := occursAtB_lt_length
          (breakSeps_ne_nil s' (by rw [hdec]; exact List.mem_append_left _ hs')) hocc
        exact hpre s' hs' q (by omega) hocc
      · intro q hocc
        have hqlt := occursAtB_lt_length hsne hocc
        exact hmax q (by omega) hocc
    have hend : stepEnd text C start = start + p + 2 := by
      unfold stepEnd
      rw [if_pos h2, hsome]
    rw [hhead, hend, show start + p + 2 - start = p + 2 by omega]

/-- C6 witness: the amended theorem on the first window of
`demoChunkText` — the accepted break point is the `'. '` occurrence at
index 12, so the emitted first chunk is the first 14 characters. -/
theorem c6_witness :
    (splitLoop demoChunkText 20 5 0 31).head? =
      some ((demoChunkText.drop 0).take 14) :=
  (c6_amended demoChunkText 20 5 0 30 (by decide) (by decide)).2
    [['\n', '\n']] ['.', ' '] [['?', ' '], ['!', ' '], [';'], [',']] 12
    (by decide) (by decide) (by decide) (by decide) (by decide)

/-! ## Claim C4 -/

theorem splitBounds_stop (text : List Char) (C O start : Nat)
    (h : text.length ≤ start) :
    ∀ fuel, splitBounds text C O start fuel = [] := by
  intro fuel
  cases fuel with
  | zero => rfl
  | succ n =>
    unfold splitBounds
    rw [if_neg (by omega)]

theorem splitLoop_eq_map (text : List Char) (C O : Nat) :
    ∀ fuel start,
      splitLoop text C O start fuel =
        (splitBounds text C O start fuel).map (sliceOf text) := by
  intro fuel
  induction fuel with
  | zero => intro start; rfl
  | succ n ih =>
    intro start
    unfold splitLoop splitBounds
    by_cases h : start < text.length
    · rw [if_pos h, if_pos h, List.map_cons, ih]
      rfl
    · rw [if_neg h, if_neg h]
      rfl

theorem splitBounds_spec (text : List Char) (C O : Nat) (hC : 0 < C) :
    ∀ fuel start, start < text.length → text.length ≤ start + fuel →
      (splitBounds text C O start fuel).head?.map Prod.fst = some start ∧
      List.Chain' (fun a b : Nat × Nat => b.1 ≤ a.2 ∧ a.2 - b.1 ≤ O)
        (splitBounds text C O start fuel) ∧
      (∀ p ∈ splitBounds text C O start fuel,
        p.1 < p.2 ∧ p.2 ≤ p.1 + C + 1 ∧ p.1 < text.length) ∧
      (∀ p, (splitBounds text C O start fuel).getLast? = some p →
        text.length ≤ p.2) := by
  intro fuel
  induction fuel with
  | zero => intro start h1 h2; exact absurd h1 (by omega)
  | succ n ih =>
    intro start h1 h2
    have hse := stepEnd_bounds text C start hC
    have hns := nextStart_le text C O start
    have heq : splitBounds text C O start (n + 1) =
        (start, stepEnd text C start) ::
          splitBounds text C O (nextStart text C O start) n := by
      simp only [splitBounds]
      rw [if_pos h1]
    rw [heq]
    by_cases h' : nextStart text C O start < text.length
    · have hn : text.length ≤ nextStart text C O start + n := by
        have := nextStart_gt text C O start hC
        omega
      obtain ⟨ihh, ihc, ihm, ihl⟩ := ih (nextStart text C O start) h' hn
      cases htl : splitBounds text C O (nextStart text C O start) n with
      | nil => rw [htl] at ihh; exact absurd ihh (by simp)
      | cons y ys =>
        rw [htl] at ihh ihc ihm ihl
        have hy : y.1 = nextStart text C O start := by
          simp only [List.head?_cons, Option.map_some'] at ihh
          injection ihh
        refine ⟨by simp, ?_, ?_, ?_⟩
        · refine List.chain'_cons'.mpr ⟨?_, ihc⟩
          intro b hb
          simp only [List.head?_cons, Option.mem_def, Option.some.injEq] at hb
          subst hb
          exact ⟨by rw [hy]; exact hns.1, by rw [hy]; exact hns.2⟩
        · intro p hp
          rcases List.mem_cons.mp hp with hp1 | hp2
          · subst hp1
            exact ⟨hse.1, by omega, h1⟩
          · exact ihm p hp2
        · intro p hp
          rw [List.getLast?_cons_cons] at hp
          exact ihl p hp
    · have htl : splitBounds text C O (nextStart text C O start) n = [] :=
        splitBounds_stop text C O _ (by omega) n
      rw [htl]
      refine ⟨by simp, by simp, ?_, ?_⟩
      · intro p hp
        simp only [List.mem_singleton] at hp
        subst hp
        exact ⟨hse.1, by omega, h1⟩
      · intro p hp
        simp only [List.getLast?_singleton, Option.some.injEq] at hp
        subst hp
        show text.length ≤ stepEnd text C start
        omega

/-- C4: for normalized `T` longer than the chunk size and `O < C`, the
chunk list of `split_text` is exactly the slices of the emitted
`(start, end)` windows, where: the first window starts at 0; each window
starts at or before the previous window's end (no gaps) and the re-covered
overlap is at most `O` characters; every window (and hence chunk) spans at
most `C + 1` characters (`C` plus the one-character boundary-search slack
of `bp + 2` on the single-character separators); and the last window
reaches the end of `T`. -/
theorem c4_split_covers (T : List Char) (C O : Nat)
    (hN : normalizeText T = T) (hO : O < C) (hL : C < T.length) :
    splitText T C O = (splitBounds T C O 0 (T.length + 1)).map (sliceOf T) ∧
      (splitBounds T C O 0 (T.length + 1)).head?.map Prod.fst = some 0 ∧
      List.Chain' (fun a b : Nat × Nat => b.1 ≤ a.2 ∧ a.2 - b.1 ≤ O)
        (splitBounds T C O 0 (T.length + 1)) ∧
      (∀ p ∈ splitBounds T C O 0 (T.length + 1), p.1 < p.2 ∧ p.2 - p.1 ≤ C + 1) ∧
      (∀ p, (splitBounds T C O 0 (T.length + 1)).getLast? = some p →
        T.length ≤ p.2) ∧
      (∀ ch ∈ splitText T C O, ch.length ≤ C + 1) := by
  have h0 : (0 : Nat) < T.length := by omega
  have hf : T.length ≤ 0 + (T.length + 1) := by omega
  obtain ⟨hh, hc, hm, hl⟩ :=
    splitBounds_spec T C O (by omega) (T.length + 1) 0 h0 hf
  have hmap : splitText T C O =
      (splitBounds T C O 0 (T.length + 1)).map (sliceOf T) := by
    unfold splitText
    rw [hN, if_neg (by omega)]
    exact splitLoop_eq_map T C O (T.length + 1) 0
  refine ⟨hmap, hh, hc, ?_, hl, ?_⟩
  · intro p hp
    have := hm p hp
    exact ⟨this.1, by omega⟩
  · intro ch hch
    rw [hmap] at hch
    obtain ⟨p, hp, hpe⟩ := List.mem_map.mp hch
    have hb := hm p hp
    rw [← hpe]
    have hlen : (sliceOf T p).length ≤ p.2 - p.1 := by
      unfold sliceOf
      rw [List.length_take]
      omega
    omega

/-- C4 witness: the theorem on a concrete 10-character text with
`chunk_size = 4`, `overlap = 1`. -/
theorem c4_witness :
    splitText "abcdefghij".data 4 1 =
        (splitBounds "abcdefghij".data 4 1 0 ("abcdefghij".data.length + 1)).map
          (sliceOf "abcdefghij".data) ∧
      (splitBounds "abcdefghij".data 4 1 0
          ("abcdefghij".data.length + 1)).head?.map Prod.fst = some 0 ∧
      List.Chain' (fun a b : Nat × Nat => b.1 ≤ a.2 ∧ a.2 - b.1 ≤ 1)
        (splitBounds "abcdefghij".data 4 1 0 ("abcdefghij".data.length + 1)) ∧
      (∀ p ∈ splitBounds "abcdefghij".data 4 1 0 ("abcdefghij".data.length + 1),
        p.1 < p.2 ∧ p.2 - p.1 ≤ 4 + 1) ∧
      (∀ p, (splitBounds "abcdefghij".data 4 1 0
          ("abcdefghij".data.length + 1)).getLast? = some p →
        "abcdefghij".data.length ≤ p.2) ∧
      (∀ ch ∈ splitText "abcdefghij".data 4 1, ch.length ≤ 4 + 1) :=
  c4_split_covers "abcdefghij".data 4 1 (by decide) (by decide) (by decide)

/-! ## Claim C10 -/

theorem collapseAux_space_eq :
    ∀ (t : List Char) (b : Bool), ∀ c ∈ collapseAux b t,
      isPySpace c = true → c = ' ' := by
  intro t
  induction t with
  | nil => intro b c hc; exact absurd hc (by simp [collapseAux])
  | cons x xs ih =>
    intro b c hc hsp
    unfold collapseAux at hc
    by_cases hx : isPySpace x
    · rw [if_pos hx] at hc
      cases b with
      | true =>
        simp only [if_true] at hc
        exact ih true c hc hsp
      | false =>
        simp only [Bool.false_eq_true, if_false] at hc
        rcases List.mem_cons.mp hc with hc1 | hc2
        · exact hc1
        · exact ih true c hc2 hsp
    · rw [if_neg hx] at hc
      rcases List.mem_cons.mp hc with hc1 | hc2
      · subst hc1; exact absurd hsp (by simpa using hx)
      · exact ih false c hc2 hsp

theorem mem_normalizeText_space {t : List Char} {c : Char}
    (hc : c ∈ normalizeText t) (hsp : isPySpace c = true) : c = ' ' := by
  unfold normalizeText stripWS at hc
  have h1 := List.mem_reverse.mp hc
  have h2 := (List.dropWhile_sublist _).subset h1
  have h3 := List.mem_reverse.mp h2
  have h4 := (List.dropWhile_sublist _).subset h3
  exact collapseAux_space_eq t false c h4 hsp

theorem mem_splitLoop_subset (text : List Char) (C O : Nat) :
    ∀ fuel start ch, ch ∈ splitLoop text C O start fuel → ∀ c ∈ ch, c ∈ text := by
  intro fuel
  induction fuel with
  | zero => intro start ch h; exact absurd h (by simp [splitLoop])
  | succ n ih =>
    intro start ch h c hc
    unfold splitLoop at h
    by_cases hs : start < text.length
    · rw [if_pos hs] at h
      rcases List.mem_cons.mp h with h1 | h2
      · subst h1
        exact List.drop_subset _ _ (List.take_subset _ _ hc)
      · exact ih (nextStart text C O start) ch h2 c hc
    · rw [if_neg hs] at h
      exact absurd h (by simp)

theorem no_newline_no_pbreak {w : List Char} (hw : '\n' ∉ w) (p : Nat) :
    occursAtB ['\n', '\n'] w p = false := by
  cases ho : occursAtB ['\n', '\n'] w p with
  | false => rfl
  | true =>
    exfalso
    unfold occursAtB at ho
    have h2 := of_decide_eq_true ho
    have h3 : '\n' ∈ (w.drop p).take (['\n', '\n'] : List Char).length := by
      rw [h2]
      simp
    exact hw (List.drop_subset _ _ (List.take_subset _ _ h3))

/-- C10: `normalize_text` collapses every whitespace run (newlines
included) to a single space, so no emitted chunk of `split_text` contains a
newline; consequently `'\n\n'` — the highest-ranked separator — can never
match in any chunk window, and the break-point selection degenerates to
the remaining separators (sentence terminators and clause punctuation). -/
theorem c10_normalize_no_newline (T : List Char) (C O : Nat) :
    (∀ c ∈ normalizeText T, isPySpace c = true → c = ' ') ∧
      (∀ ch ∈ splitText T C O, '\n' ∉ ch) ∧
      (∀ s : Nat,
        pickBreak breakSeps (((normalizeText T).drop s).take C) C =
          pickBreak [['.', ' '], ['?', ' '], ['!', ' '], [';'], [',']]
            (((normalizeText T).drop s).take C) C) := by
  have hnn : '\n' ∉ normalizeText T := by
    intro hmem
    have := mem_normalizeText_space hmem (by decide)
    exact absurd this (by decide)
  refine ⟨fun c hc => mem_normalizeText_space hc, ?_, ?_⟩
  · intro ch hch hnl
    unfold splitText at hch
    by_cases hle : (normalizeText T).length ≤ C
    · rw [if_pos hle] at hch
      simp only [List.mem_singleton] at hch
      subst hch
      exact hnn hnl
    · rw [if_neg hle] at hch
      exact hnn (mem_splitLoop_subset (normalizeText T) C O _ 0 ch hch '\n' hnl)
  · intro s
    have hw : '\n' ∉ ((normalizeText T).drop s).take C := by
      intro hmem
      exact hnn (List.drop_subset _ _ (List.take_subset _ _ hmem))
    exact pickBreak_cons_none (rfind_eq_none_of (no_newline_no_pbreak hw))

/-- C10 witness: a concrete text with an embedded newline — the normalized
chunk carries no newline. -/
theorem c10_witness : '\n' ∉ (['h', ' ', 'i'] : List Char) :=
  (c10_normalize_no_newline ['h', '\n', 'i'] 10 2).2.1 ['h', ' ', 'i'] (by decide)

/-! ## Claim C3 -/

theorem length_rankAll (items : List (List Int)) (q : List Int) :
    (rankAll items q).length = items.length := by
  unfold rankAll
  rw [List.length_insertionSort, List.length_map, List.enum_length]

theorem mem_enumFrom_fst_lt {α : Type} :
    ∀ (l : List α) (n : Nat) (p : Nat × α),
      p ∈ l.enumFrom n → n ≤ p.1 ∧ p.1 < n + l.length := by
  intro l
  induction l with
  | nil => intro n p hp; exact absurd hp (by simp)
  | cons x xs ih =>
    intro n p hp
    rw [List.enumFrom_cons] at hp
    rcases List.mem_cons.mp hp with h1 | h2
    · subst h1; simp
    · have := ih (n + 1) p h2
      simp only [List.length_cons]
      omega

theorem mem_rankAll_pos_lt {items : List (List Int)} {q : List Int}
    {h : Int × Nat} (hm : h ∈ rankAll items q) : h.2 < items.length := by
  unfold rankAll at hm
  have hp := (List.perm_insertionSort keyLe _).mem_iff.mp hm
  obtain ⟨pr, hpr, heq⟩ := List.mem_map.mp hp
  have hlt := (mem_enumFrom_fst_lt items 0 pr hpr).2
  rw [← heq]
  simpa using hlt

theorem sorted_rankAll (items : List (List Int)) (q : List Int) :
    List.Sorted keyLe (rankAll items q) :=
  List.sorted_insertionSort keyLe _

theorem length_filterMap_of_isSome {α β : Type} (f : α → Option β) :
    ∀ l : List α, (∀ a ∈ l, (f a).isSome) → (l.filterMap f).length = l.length := by
  intro l
  induction l with
  | nil => intro; rfl
  | cons x xs ih =>
    intro h
    obtain ⟨b, hb⟩ := Option.isSome_iff_exists.mp (h x (List.mem_cons_self _ _))
    rw [List.filterMap_cons_some hb]
    simp only [List.length_cons]
    rw [ih fun a ha => h a (List.mem_cons_of_mem _ ha)]

theorem length_chromaStage (coll : List CEntry) (q : List Int) (k : Nat) :
    (chromaStage coll q k).length = min (k * 5) coll.length := by
  unfold chromaStage
  rw [List.length_take, length_rankAll, List.length_map]
  omega

/-- C3 counterexample: a two-entry corpus, an empty refinement index, and
`top_k = 1` — the two-stage search returns both candidates, more than
`top_k`, because the no-refinement branch of `VectorStore.search` (lines
233-240) returns the ChromaDB candidate list untruncated. -/
theorem c3_counterexample :
    vsSearch [⟨[0], 10⟩, ⟨[1], 11⟩] [] [0] 1 = [10, 11] ∧
      ¬ (vsSearch [⟨[0], 10⟩, ⟨[1], 11⟩] [] [0] 1).length ≤ 1 := by
  refine ⟨by decide, by decide⟩

/-- C3 (amended): when the refinement index is populated, the search
returns at most `top_k` results (and exactly corpus-size results when the
index mirrors the collection and `top_k` is at least the corpus size),
emitted in the refinement index's non-decreasing exact-distance order;
when the refinement index is absent or empty, the persistent store's
candidate list — `min(top_k * 5, count)` entries in non-decreasing backend
distance — is returned untruncated, which can exceed `top_k`. -/
theorem c3_amended (coll : List CEntry) (index : List (List Int)) (q : List Int)
    (k : Nat) :
    (0 < index.length → (vsSearch coll index q k).length ≤ k) ∧
      (index.length = coll.length → coll.length ≤ k →
        (vsSearch coll index q k).length = coll.length) ∧
      (index.length = 0 →
        vsSearch coll index q k =
          (chromaStage coll q k).map fun c => fetchDoc coll c.2) ∧
      (chromaStage coll q k).length = min (k * 5) coll.length ∧
      List.Sorted (· ≤ ·) ((chromaStage coll q k).map Prod.fst) ∧
      List.Sorted (· ≤ ·) ((faissSearch index q (min k index.length)).map Prod.fst) := by
  refine ⟨?_, ?_, ?_, length_chromaStage coll q k, ?_, ?_⟩
  · intro hidx
    by_cases hemp : (chromaStage coll q k).isEmpty
    · simp [vsSearch, hemp]
    · simp only [vsSearch, hemp, Bool.false_eq_true, if_false, hidx, if_true]
      rw [List.length_take]
      omega
  · intro hlen hk
    by_cases hL : coll.length = 0
    · have hcoll : coll = [] := List.length_eq_zero.mp hL
      subst hcoll
      simp [vsSearch, chromaStage, rankAll]
    · have hclen : (chromaStage coll q k).length = coll.length := by
        rw [length_chromaStage]
        omega
      have hemp : (chromaStage coll q k).isEmpty = false := by
        cases hc : chromaStage coll q k with
        | nil => rw [hc] at hclen; simp at hclen; omega
        | cons a l => rfl
      have hidx : 0 < index.length := by omega
      simp only [vsSearch, hemp, Bool.false_eq_true, if_false, hidx, if_true]
      have hmin : min k index.length = index.length := by omega
      have hfl : (faissSearch index q (min k index.length)).length = index.length := by
        unfold faissSearch
        rw [List.length_take, length_rankAll]
        omega
      have hsome : ∀ h ∈ faissSearch index q (min k index.length),
          ((chromaStage coll q k).get? h.2 |>.map
            (fun c => fetchDoc coll c.2)).isSome := by
        intro h hm
        have hsub : h ∈ rankAll index q := List.mem_of_mem_take hm
        have hlt : h.2 < (chromaStage coll q k).length := by
          have := mem_rankAll_pos_lt hsub
          omega
        cases hget : (chromaStage coll q k).get? h.2 with
        | none =>
          have := List.get?_eq_none.mp hget
          omega
        | some c => rfl
      rw [List.length_take, length_filterMap_of_isSome _ _ hsome, hfl]
      omega
  · intro hidx
    by_cases hemp : (chromaStage coll q k).isEmpty
    · have hnil : chromaStage coll q k = [] := by
        cases hc : chromaStage coll q k with
        | nil => rfl
        | cons a l => rw [hc] at hemp; exact absurd hemp (by simp)
      simp [vsSearch, hemp, hnil]
    · have : ¬ 0 < index.length := by omega
      simp [vsSearch, hemp, this]
  · have hs : List.Sorted keyLe (chromaStage coll q k) :=
      List.Pairwise.sublist (List.take_sublist _ _) (sorted_rankAll _ _)
    exact (List.pairwise_map).mpr hs
  · have hs : List.Sorted keyLe (faissSearch index q (min k index.length)) :=
      List.Pairwise.sublist (List.take_sublist _ _) (sorted_rankAll _ _)
    exact (List.pairwise_map).mpr hs

/-- C3 witness: the amended theorem applied to a populated refinement
index. -/
theorem c3_amended_witness :
    (vsSearch [⟨[0], 10⟩, ⟨[1], 11⟩] [[0], [1]] [0] 1).length ≤ 1 :=
  (c3_amended [⟨[0], 10⟩, ⟨[1], 11⟩] [[0], [1]] [0] 1).1 (by decide)

/-! ## Claim C5 -/

/-- C5: for normalized text no longer than the chunk size, `split_text`
returns the single-element list holding the whole text (lines 41-42),
including for empty text. -/
theorem c5_short_text_single_chunk (T : List Char) (C O : Nat)
    (hN : normalizeText T = T) (hL : T.length ≤ C) :
    splitText T C O = [T] := by
  unfold splitText
  rw [hN, if_pos hL]

/-- C5 witness: concrete short and empty texts. -/
theorem c5_witness :
    splitText "hi".data 5 2 = ["hi".data] ∧ splitText [] 5 2 = [[]] :=
  ⟨c5_short_text_single_chunk "hi".data 5 2 (by decide) (by decide),
   c5_short_text_single_chunk [] 5 2 (by decide) (by decide)⟩

/-! ## Claim C8 -/

/-- C8: a second `get_plugin` call returns the identical active instance in
the identical registry state (no new construction), and after a successful
`shutdown_plugin` the entry is gone, so the next `get_plugin` constructs
and sets up a fresh instance (a different identity than the one shut
down). -/
theorem c8_registry_reuse (reg : List (String × String)) (beh : Nat → InitOutcome)
    (sb : Nat → ShutOutcome) (c : String × String) (s : PMState) :
    (∀ i s', getPlugin reg beh c s = .ok (i, s') →
        getPlugin reg beh c s' = .ok (i, s')) ∧
      (wfState s → ∀ s₂ j, shutdownPlugin sb c s = (true, s₂) →
        lookupActive s c = some j →
          lookupActive s₂ c = none ∧
            (c ∈ reg → beh s₂.nextId = .succeeds →
              getPlugin reg beh c s₂ =
                  .ok (s₂.nextId, ⟨(c, s₂.nextId) :: s₂.active, s₂.nextId + 1⟩) ∧
                s₂.nextId ≠ j)) := by
  constructor
  · intro i s' h
    unfold getPlugin at h ⊢
    cases hla : lookupActive s c with
    | some i0 =>
      rw [hla] at h
      injection h with h
      injection h with h1 h2
      subst h1; subst h2
      rw [hla]
    | none =>
      rw [hla] at h
      unfold initializePlugin at h
      by_cases hreg : c ∈ reg
      · rw [if_pos hreg, hla] at h
        cases hbeh : beh s.nextId with
        | succeeds =>
          rw [hbeh] at h
          injection h with h
          injection h with h1 h2
          subst h1; subst h2
          have : lookupActive ⟨(c, s.nextId) :: s.active, s.nextId + 1⟩ c =
              some s.nextId := by
            unfold lookupActive
            rw [List.find?_cons_of_pos _ (by simp)]
            rfl
          rw [this]
        | returnsFalse => rw [hbeh] at h; exact absurd h (by simp)
        | raisesInHook => rw [hbeh] at h; exact absurd h (by simp)
        | raisesInCtor => rw [hbeh] at h; exact absurd h (by simp)
      · rw [if_neg hreg] at h
        exact absurd h (by simp)
  · intro hwf s₂ j hsd hla
    cases hsb : sb j with
    | succeeds =>
      have hval : shutdownPlugin sb c s =
          (true, ⟨s.active.filter fun p => decide (p.1 ≠ c), s.nextId⟩) := by
        simp only [shutdownPlugin, hla, hsb]
      rw [hval] at hsd
      cases hsd
      have hnone : lookupActive ⟨s.active.filter fun p => decide (p.1 ≠ c), s.nextId⟩ c =
          none := by
        unfold lookupActive
        have hf : (s.active.filter fun p => decide (p.1 ≠ c)).find?
            (fun p => decide (p.1 = c)) = none := by
          rw [List.find?_eq_none]
          intro x hx
          have hx2 := (List.mem_filter.mp hx).2
          simp only [decide_eq_true_eq] at hx2 ⊢
          exact hx2
        rw [hf]
        rfl
      refine ⟨hnone, ?_⟩
      intro hreg hbeh
      have hj : j < s.nextId := by
        have hfind : ∃ pr, s.active.find? (fun p => decide (p.1 = c)) = some pr ∧
            pr.2 = j := by
          unfold lookupActive at hla
          cases hf : s.active.find? (fun p => decide (p.1 = c)) with
          | none => rw [hf] at hla; exact absurd hla (by simp)
          | some pr =>
            rw [hf] at hla
            exact ⟨pr, rfl, by injection hla⟩
        obtain ⟨pr, hf, hpr⟩ := hfind
        have hmem := List.mem_of_find?_eq_some hf
        have := hwf pr hmem
        omega
      constructor
      · show getPlugin reg beh c ⟨s.active.filter fun p => decide (p.1 ≠ c), s.nextId⟩ =
          .ok (s.nextId,
            ⟨(c, s.nextId) :: s.active.filter fun p => decide (p.1 ≠ c), s.nextId + 1⟩)
        unfold getPlugin
        rw [hnone]
        unfold initializePlugin
        rw [if_pos hreg, hnone, show beh s.nextId = .succeeds from hbeh]
      · show s.nextId ≠ j
        omega
    | returnsFalse =>
      have hval : shutdownPlugin sb c s = (false, s) := by
        simp only [shutdownPlugin, hla, hsb]
      rw [hval] at hsd
      exact absurd hsd (by simp)
    | raisesErr =>
      have hval : shutdownPlugin sb c s = (false, s) := by
        simp only [shutdownPlugin, hla, hsb]
      rw [hval] at hsd
      exact absurd hsd (by simp)

/-- C8 witness: a concrete registry with one active plugin — reuse, then
shutdown, then fresh re-construction. -/
theorem c8_witness :
    lookupActive ⟨[], 1⟩ ("embedding", "ollama") = none ∧
      getPlugin [("embedding", "ollama")] (fun _ => .succeeds) ("embedding", "ollama")
          ⟨[], 1⟩ =
        .ok (1, ⟨[(("embedding", "ollama"), 1)], 2⟩) ∧
      (1 : Nat) ≠ 0 := by
  have h := (c8_registry_reuse [("embedding", "ollama")] (fun _ => .succeeds)
      (fun _ => .succeeds) ("embedding", "ollama")
      ⟨[(("embedding", "ollama"), 0)], 1⟩).2 (by decide) ⟨[], 1⟩ 0 (by decide) (by decide)
  have h2 := h.2 (by decide) rfl
  exact ⟨h.1, h2.1, h2.2⟩

/-! ## Claim C9 -/

/-- C9: if the plugin is registered but not active and its construction or
setup hook fails (returns `False` or raises), `initialize_plugin` raises
`PluginInitializationError` without registering anything, and a later
`get_plugin` under an environment where setup succeeds constructs a fresh
instance from scratch. -/
theorem c9_init_failure (reg : List (String × String)) (beh : Nat → InitOutcome)
    (c : String × String) (s : PMState) (hreg : c ∈ reg)
    (hna : lookupActive s c = none) (hb : beh s.nextId ≠ .succeeds) :
    initializePlugin reg beh c s = .error .initFailure ∧
      ∀ beh₂ : Nat → InitOutcome, beh₂ s.nextId = .succeeds →
        getPlugin reg beh₂ c s =
          .ok (s.nextId, ⟨(c, s.nextId) :: s.active, s.nextId + 1⟩) := by
  constructor
  · unfold initializePlugin
    rw [if_pos hreg, hna]
    cases h2 : beh s.nextId with
    | succeeds => exact absurd h2 hb
    | returnsFalse => rfl
    | raisesInHook => rfl
    | raisesInCtor => rfl
  · intro beh₂ h2
    unfold getPlugin initializePlugin
    rw [hna, if_pos hreg, h2]

/-! ## Claim C7 -/

theorem subBatchesF_join {α : Type} :
    ∀ (fuel : Nat) (l : List α), l.length ≤ fuel → (subBatchesF fuel l).flatten = l := by
  intro fuel
  induction fuel with
  | zero =>
    intro l hl
    cases l with
    | nil => rfl
    | cons x xs => exact absurd hl (by simp)
  | succ n ih =>
    intro l hl
    cases l with
    | nil => rfl
    | cons x xs =>
      show ((x :: xs).take embedBatchSize :: subBatchesF n ((x :: xs).drop embedBatchSize)).flatten =
        x :: xs
      have hd : ((x :: xs).drop embedBatchSize).length ≤ n := by
        rw [List.length_drop]
        have : 0 < embedBatchSize := by decide
        simp only [List.length_cons] at hl ⊢
        omega
      rw [List.flatten_cons, ih _ hd, List.take_append_drop]

theorem subBatchesF_batch_le {α : Type} :
    ∀ (fuel : Nat) (l : List α), l.length ≤ fuel →
      ∀ b ∈ subBatchesF fuel l, b.length ≤ embedBatchSize := by
  intro fuel
  induction fuel with
  | zero =>
    intro l hl b hb
    cases l with
    | nil => exact absurd hb (by simp [subBatchesF])
    | cons x xs => exact absurd hl (by simp)
  | succ n ih =>
    intro l hl b hb
    cases l with
    | nil => exact absurd hb (by simp [subBatchesF])
    | cons x xs =>
      have hd : ((x :: xs).drop embedBatchSize).length ≤ n := by
        rw [List.length_drop]
        have : 0 < embedBatchSize := by decide
        simp only [List.length_cons] at hl ⊢
        omega
      rcases List.mem_cons.mp hb with hb1 | hb2
      · rw [hb1]
        exact List.length_take_le _ _
      · exact ih _ hd b hb2

theorem generateE_ok {α ε : Type} (prov : List α → Except ε (List (List Int)))
    (g : α → List Int) :
    ∀ bs : List (List α), (∀ b ∈ bs, prov b = .ok (b.map g)) →
      generateE prov bs = .ok ((bs.map (List.map g)).flatten) := by
  intro bs
  induction bs with
  | nil => intro; rfl
  | cons b bs ih =>
    intro h
    show generateE prov (b :: bs) = _
    unfold generateE
    rw [h b (List.mem_cons_self _ _), ih fun x hx => h x (List.mem_cons_of_mem _ hx)]
    rfl

theorem issuedBatches_ok {α ε : Type} (prov : List α → Except ε (List (List Int))) :
    ∀ bs : List (List α), (∀ b ∈ bs, ∃ v, prov b = .ok v) →
      issuedBatches prov bs = bs := by
  intro bs
  induction bs with
  | nil => intro; rfl
  | cons b bs ih =>
    intro h
    obtain ⟨v, hv⟩ := h b (List.mem_cons_self _ _)
    show issuedBatches prov (b :: bs) = b :: bs
    unfold issuedBatches
    rw [hv, ih fun x hx => h x (List.mem_cons_of_mem _ hx)]

/-- C7: for a pointwise deterministic backend of fixed dimension `d`,
`EmbeddingService.generate` issues the provider's batch operation in
sub-batches of at most 250 items (all of them, in order), and returns
exactly one vector of length `d` per input text, concatenated in input
order. -/
theorem c7_generate_batches (prov : List Nat → Except String (List (List Int)))
    (g : Nat → List Int) (d : Nat) (texts : List Nat)
    (hprov : ∀ b, prov b = .ok (b.map g)) (hd : ∀ t, (g t).length = d) :
    generate prov texts = .ok (texts.map g) ∧
      (texts.map g).length = texts.length ∧
      (∀ v ∈ texts.map g, v.length = d) ∧
      (∀ b ∈ subBatches texts, b.length ≤ embedBatchSize) ∧
      issuedBatches prov (subBatches texts) = subBatches texts := by
  refine ⟨?_, List.length_map _ _, ?_, ?_, ?_⟩
  · unfold generate
    rw [generateE_ok prov g (subBatches texts) fun b _ => hprov b]
    rw [← List.map_flatten]
    unfold subBatches
    rw [subBatchesF_join texts.length texts le_rfl]
  · intro v hv
    obtain ⟨t, _, ht⟩ := List.mem_map.mp hv
    rw [← ht]
    exact hd t
  · exact subBatchesF_batch_le texts.length texts le_rfl
  · exact issuedBatches_ok prov _ fun b _ => ⟨_, hprov b⟩

/-- C7 witness: a concrete two-text batch with a two-dimensional backend. -/
theorem c7_witness :
    generate (fun b => (.ok (b.map fun t => [Int.ofNat t, 0]) : Except String (List (List Int)))) [3, 4] =
        .ok [[3, 0], [4, 0]] ∧
      (∀ b ∈ subBatches [3, 4], b.length ≤ embedBatchSize) := by
  have h := c7_generate_batches (fun b => .ok (b.map fun t => [Int.ofNat t, 0]))
    (fun t => [Int.ofNat t, 0]) 2 [3, 4] (fun _ => rfl) (fun _ => rfl)
  exact ⟨h.1, h.2.2.2.1⟩

/-- C9 witness: a concrete failed setup hook, then a successful retry. -/
theorem c9_witness :
    initializePlugin [("embedding", "ollama")] (fun _ => .returnsFalse)
        ("embedding", "ollama") ⟨[], 0⟩ = .error .initFailure ∧
      getPlugin [("embedding", "ollama")] (fun _ => .succeeds) ("embedding", "ollama")
          ⟨[], 0⟩ = .ok (0, ⟨[(("embedding", "ollama"), 0)], 1⟩) := by
  have h := c9_init_failure [("embedding", "ollama")] (fun _ => .returnsFalse)
    ("embedding", "ollama") ⟨[], 0⟩ (by decide) (by decide) (by decide)
  exact ⟨h.1, h.2 (fun _ => .succeeds) rfl⟩
